import Mathlib

/-
Verification of the namedargs library (cpp-namedargs): a compile-time parser
for comma-separated `key = value` argument lists.

The development shallowly embeds `include/namedargs/parser.hpp`:
* `std::string_view` is modelled as `List Char` (`Str`); `substr(pos)` with
  `pos > size()` throws `std::out_of_range`, modelled by `Err.outOfRange`.
* `std::int64_t` arithmetic in `from_chars` is modelled on `Int` with explicit
  two's-complement wrapping (`wrap64`), since `10 * num + digit` is performed
  on a 64-bit signed integer with no overflow check in the source.
* `throw parse_error(msg)` is modelled as `Err.parseError msg`.
* `std::span<Token>::front()` on an empty span is undefined behaviour; it is
  modelled as the distinguished error `Err.frontOnEmpty`, which is proved
  unreachable from any token sequence produced by `tokenize`.
* The `while`/`for` loops of `tokenize` and `parse_stmt` are modelled with an
  explicit iteration bound (`fuel`), initialised so that it can never be
  exhausted (each iteration consumes at least one character resp. token);
  `tokenize_no_loopLimit` and the parser case lemmas prove the bound is
  never hit, so `Err.loopLimit` is unreachable as well.
-/

deriving instance DecidableEq for Except

set_option maxRecDepth 40000

namespace Namedargs

/-- `std::string_view` contents. -/
abbrev Str := List Char

/-- Outcomes of the C++ code that do not return normally. -/
inductive Err where
  /-- `throw parse_error(msg)` -/
  | parseError (msg : String)
  /-- `std::out_of_range` thrown by `std::string_view::substr(pos)` when `pos > size()` -/
  | outOfRange
  /-- undefined behaviour: `std::span::front()` on an empty span -/
  | frontOnEmpty
  /-- artificial bound of the loop embedding; proved unreachable -/
  | loopLimit
deriving DecidableEq, Repr

/-- `constexpr bool isspace(char c)`: `('\t' <= c and c <= '\r') or c == ' '`
(tab = 9, CR = 13, space = 32). -/
def isspace (c : Char) : Bool := (9 ≤ c.toNat && c.toNat ≤ 13) || c.toNat == 32

/-- `constexpr bool isdigit(char c)`: `'0' <= c and c <= '9'`. -/
def isdigit (c : Char) : Bool := 48 ≤ c.toNat && c.toNat ≤ 57

/-- `constexpr bool isupper(char c)`: `'A' <= c and c <= 'Z'`. -/
def isupper (c : Char) : Bool := 65 ≤ c.toNat && c.toNat ≤ 90

/-- `constexpr bool islower(char c)`: `'a' <= c and c <= 'z'`. -/
def islower (c : Char) : Bool := 97 ≤ c.toNat && c.toNat ≤ 122

/-- `constexpr bool isident1(char c)`: letter or underscore (95). -/
def isident1 (c : Char) : Bool := isupper c || islower c || c.toNat == 95

/-- `constexpr bool isident2(char c)`: `isident1(c) or isdigit(c)`. -/
def isident2 (c : Char) : Bool := isident1 c || isdigit c

/-- `constexpr bool ispunct(char c)`: the four ASCII punctuation ranges
`'!'..'/'` (33..47), `':'..'@'` (58..64), `'['..'`'` (91..96), `'{'..'~'` (123..126). -/
def ispunct (c : Char) : Bool :=
  (33 ≤ c.toNat && c.toNat ≤ 47) || (58 ≤ c.toNat && c.toNat ≤ 64) ||
  (91 ≤ c.toNat && c.toNat ≤ 96) || (123 ≤ c.toNat && c.toNat ≤ 126)

/-- The quote character `'\''` (39). -/
def quoteChar : Char := Char.ofNat 39

/-- Scanning core of `find_if_not`: walk the remaining characters, carrying the
current index `pos`; return the index of the first character that does not
satisfy `pred`, or `none` for `npos`. -/
def find_if_not_from (pred : Char → Bool) : Str → Nat → Option Nat
  | [], _ => none
  | c :: rest, pos => if pred c then find_if_not_from pred rest (pos + 1) else some pos

/-- `find_if_not(sv, pred, pos)`: index of the first position `≥ pos` whose
character fails `pred`; `none` models `std::string_view::npos`. -/
def find_if_not (sv : Str) (pred : Char → Bool) (pos : Nat) : Option Nat :=
  find_if_not_from pred (sv.drop pos) pos

/-- Scanning core of `std::string_view::find_first_of(ch, pos)`. -/
def find_first_of_from (ch : Char) : Str → Nat → Option Nat
  | [], _ => none
  | c :: rest, pos => if c == ch then some pos else find_first_of_from ch rest (pos + 1)

/-- `sv.find_first_of(ch, pos)`: index of the first occurrence of `ch` at
position `≥ pos`; `none` models `npos`. -/
def find_first_of (sv : Str) (ch : Char) (pos : Nat) : Option Nat :=
  find_first_of_from ch (sv.drop pos) pos

/-- Two's-complement wrap-around of a 64-bit signed integer. The C++ source
computes `10 * num + (*first - '0')` on `std::int64_t` with no overflow check
(signed overflow: wrap-around on real targets, ill-formed in constant
evaluation). -/
def wrap64 (x : Int) : Int := (x + 2 ^ 63) % 2 ^ 64 - 2 ^ 63

/-- The recursive `namedargs::from_chars(first, last, num = 0)` defined in
`parser.hpp` (the only overload visible there): accumulate base-10 digits into
`num`, returning the value and the first unconsumed position (here: the
remaining suffix). Note it never reports overflow. -/
def from_chars : Str → Int → Int × Str
  | [], num => (num, [])
  | c :: rest, num =>
    if isdigit c then from_chars rest (wrap64 (10 * num + ((c.toNat : Int) - 48)))
    else (num, c :: rest)

/-- `TokenKind`. -/
inductive TokenKind where
  | num
  | str
  | ident
  | punct
  | eof
deriving DecidableEq, Repr

/-- `Token { kind, sv, num }`; `num` is meaningful only for `TokenKind.num`
(the source value-initialises it to `{}` = 0 otherwise). -/
structure Token where
  kind : TokenKind
  sv : Str
  num : Int
deriving DecidableEq, Repr

/-- `ArgParser::skip_whitespaces`: `pos = find_if_not(sv, isspace, 1); return
sv.substr(pos)`. When the whitespace run reaches the end of the input,
`find_if_not` yields `npos` and `substr(npos)` throws `std::out_of_range`. -/
def skip_whitespaces (sv : Str) : Except Err Str :=
  match find_if_not sv isspace 1 with
  | some pos => .ok (sv.drop pos)
  | none => .error .outOfRange

/-- `ArgParser::tokenize_number`: parse the maximal digit run with
`from_chars`, emit a `num` token over the consumed characters. -/
def tokenize_number (sv : Str) : Token × Str :=
  match from_chars sv 0 with
  | (num, rest) => (⟨.num, sv.take (sv.length - rest.length), num⟩, rest)

/-- `ArgParser::tokenize_string_literal`: `pos = sv.find_first_of('\'', 1)`;
`npos` → `throw parse_error("unclosed string literal")`; otherwise emit a
`str` token over `sv.substr(1, pos - 1)` and continue at `sv.substr(pos + 1)`. -/
def tokenize_string_literal (sv : Str) : Except Err (Token × Str) :=
  match find_first_of sv quoteChar 1 with
  | none => .error (.parseError "unclosed string literal")
  | some pos => .ok (⟨.str, (sv.drop 1).take (pos - 1), 0⟩, sv.drop (pos + 1))

/-- `ArgParser::tokenize_identifier`: `pos = find_if_not(sv, isident2, 1)`;
emit an `ident` token over `sv.substr(0, pos)` and return `sv.substr(pos)`.
When the identifier run reaches the end of the input, `pos` is `npos`:
`sv.substr(0, npos)` is fine but the final `sv.substr(npos)` throws
`std::out_of_range`. -/
def tokenize_identifier (sv : Str) : Except Err (Token × Str) :=
  match find_if_not sv isident2 1 with
  | some pos => .ok (⟨.ident, sv.take pos, 0⟩, sv.drop pos)
  | none => .error .outOfRange

/-- `ArgParser::tokenize_punct`: one-character `punct` token. -/
def tokenize_punct (sv : Str) : Token × Str :=
  (⟨.punct, sv.take 1, 0⟩, sv.drop 1)

/-- The `while (not sv.empty())` loop of `ArgParser::tokenize`, dispatching on
the first remaining character exactly as the source does, with an iteration
bound (every iteration consumes at least one character, so the initial bound
`sv.length + 1` is never exhausted; see `tokenize_no_loopLimit`). -/
def tokenizeLoop : Nat → Str → List Token → Except Err (List Token)
  | 0, _, _ => .error .loopLimit
  | fuel + 1, sv, acc =>
    match sv with
    | [] => .ok (acc ++ [⟨.eof, [], 0⟩])
    | c :: rest =>
      if isspace c then
        match skip_whitespaces (c :: rest) with
        | .error e => .error e
        | .ok sv2 => tokenizeLoop fuel sv2 acc
      else if isdigit c then
        match tokenize_number (c :: rest) with
        | (t, sv2) => tokenizeLoop fuel sv2 (acc ++ [t])
      else if c == quoteChar then
        match tokenize_string_literal (c :: rest) with
        | .error e => .error e
        | .ok (t, sv2) => tokenizeLoop fuel sv2 (acc ++ [t])
      else if isident1 c then
        match tokenize_identifier (c :: rest) with
        | .error e => .error e
        | .ok (t, sv2) => tokenizeLoop fuel sv2 (acc ++ [t])
      else if ispunct c then
        match tokenize_punct (c :: rest) with
        | (t, sv2) => tokenizeLoop fuel sv2 (acc ++ [t])
      else .error (.parseError "unexpected character")

/-- `ArgParser::tokenize`: run the loop over the whole input and append the
final `eof` token over the (now empty) remaining span. -/
def tokenize (input : Str) : Except Err (List Token) :=
  tokenizeLoop (input.length + 1) input []

/-- `std::variant<std::int64_t, std::string_view>`: alternative 0 is the
integer, alternative 1 the string slice. -/
abbrev ArgType := Int ⊕ Str

/-- One entry of `args_`: `(key, value)`. -/
abbrev Arg := Str × ArgType

/-- The argument table `args_`. -/
abbrev Args := List Arg

/-- The punctuator `","`. -/
def commaSv : Str := [',']

/-- The punctuator `"="`. -/
def eqSv : Str := ['=']

/-- `namedargs::consume(kind, toks)`: reads `toks.front()` (undefined on an
empty span); pops it when its kind matches, otherwise leaves `toks` alone. -/
def consume (kind : TokenKind) (toks : List Token) : Except Err (List Token × Bool) :=
  match toks with
  | [] => .error .frontOnEmpty
  | t :: rest => if t.kind = kind then .ok (rest, true) else .ok (t :: rest, false)

/-- `namedargs::consume_punct(punct, toks)`. -/
def consume_punct (punct : Str) (toks : List Token) : Except Err (List Token × Bool) :=
  match toks with
  | [] => .error .frontOnEmpty
  | t :: rest =>
    if t.kind = TokenKind.punct ∧ t.sv = punct then .ok (rest, true)
    else .ok (t :: rest, false)

/-- `namedargs::expect(kind, toks)`: pop a token of the given kind or throw. -/
def expect (kind : TokenKind) (toks : List Token) : Except Err (List Token) :=
  match toks with
  | [] => .error .frontOnEmpty
  | t :: rest =>
    if t.kind = kind then .ok rest
    else .error (.parseError "unexpected token in namedargs::expect")

/-- `namedargs::expect_punct(punct, toks)`. -/
def expect_punct (punct : Str) (toks : List Token) : Except Err (List Token) :=
  match toks with
  | [] => .error .frontOnEmpty
  | t :: rest =>
    if t.kind = TokenKind.punct ∧ t.sv = punct then .ok rest
    else .error (.parseError "unexpected token in namedargs::expect_punct")

/-- `namedargs::find(v, key)`: linear search for the first entry whose key
equals `key` (`v.end()` is modelled by `none`). -/
def find (v : Args) (key : Str) : Option Arg :=
  v.find? (fun x => x.1 == key)

/-- `ArgParser::parse_ident`: the front token must be an identifier that is
not yet present as a key in `args_`; a repeated key throws
`parse_error("argument already exists")` (`SemanticError::DuplicateKey`). -/
def parse_ident (toks : List Token) (args : Args) : Except Err (List Token × Str) :=
  match toks with
  | [] => .error .frontOnEmpty
  | tok :: rest =>
    if tok.kind = TokenKind.ident then
      match find args tok.sv with
      | none => .ok (rest, tok.sv)
      | some _ => .error (.parseError "argument already exists")
    else .error (.parseError "unexpected token; expecting TokenKind::ident")

/-- `ArgParser::parse_primary`: `primary = str | num`. -/
def parse_primary (toks : List Token) : Except Err (List Token × ArgType) :=
  match toks with
  | [] => .error .frontOnEmpty
  | tok :: rest =>
    match tok.kind with
    | .str => .ok (rest, .inr tok.sv)
    | .num => .ok (rest, .inl tok.num)
    | _ => .error (.parseError "unexpected token; expecting TokenKind::str or TokenKind::num")

/-- `ArgParser::parse_assign`: `assign = ident "=" primary`; appends the new
`(key, value)` pair at the end of `args_`. -/
def parse_assign (toks : List Token) (args : Args) : Except Err (List Token × Args) :=
  match parse_ident toks args with
  | .error e => .error e
  | .ok (toks2, key) =>
    match expect_punct eqSv toks2 with
    | .error e => .error e
    | .ok toks2b =>
      match parse_primary toks2b with
      | .error e => .error e
      | .ok (toks3, arg) => .ok (toks3, args ++ [(key, arg)])

/-- The `for (;;)` loop of `ArgParser::parse_stmt`: repeatedly consume `","`
followed by an `assign`. The iteration bound is initialised to
`toks.length + 1` and is never exhausted, since every iteration consumes the
comma token and more. -/
def parse_stmt_loop : Nat → List Token → Args → Except Err (List Token × Args)
  | 0, _, _ => .error .loopLimit
  | fuel + 1, toks, args =>
    match consume_punct commaSv toks with
    | .error e => .error e
    | .ok (toks2, true) =>
      match parse_assign toks2 args with
      | .error e => .error e
      | .ok (toks3, args3) => parse_stmt_loop fuel toks3 args3
    | .ok (_, false) => .ok (toks, args)

/-- `ArgParser::parse_stmt`: `stmt = assign ("," assign)*`. -/
def parse_stmt (toks : List Token) (args : Args) : Except Err (List Token × Args) :=
  match parse_assign toks args with
  | .error e => .error e
  | .ok (toks2, args2) => parse_stmt_loop (toks2.length + 1) toks2 args2

/-- `ArgParser::parse_args`: `args = stmt? eof` — accept `eof` immediately, or
parse a `stmt` and then require `eof`. -/
def parse_args (toks : List Token) (args : Args) : Except Err (List Token × Args) :=
  match consume TokenKind.eof toks with
  | .error e => .error e
  | .ok (toks2, true) => .ok (toks2, args)
  | .ok (_, false) =>
    match parse_stmt toks args with
    | .error e => .error e
    | .ok (toks3, args3) =>
      match expect TokenKind.eof toks3 with
      | .error e => .error e
      | .ok toks4 => .ok (toks4, args3)

/-- Byte-lexicographic `<` on string views: both `x.first.compare(y.first) < 0`
(the `std::sort` comparator in `ArgParser::execute`) and the `string_view`
`operator<` used by `binary_search`. -/
def svLt : Str → Str → Bool
  | [], [] => false
  | [], _ :: _ => true
  | _ :: _, [] => false
  | a :: as, b :: bs =>
    if a.toNat < b.toNat then true
    else if b.toNat < a.toNat then false
    else svLt as bs

/-- The comparator-induced "not greater" order on table entries: `x` may come
before `y` exactly when `comp(y, x)` is false, the `std::sort` postcondition. -/
def argLe (x y : Arg) : Prop := svLt y.1 x.1 = false

instance : DecidableRel argLe := fun x y => instDecidableEqBool (svLt y.1 x.1) false

/-- The strict key order: consecutive keys strictly increase. -/
def argLt (x y : Arg) : Prop := svLt x.1 y.1 = true

/-- The `std::sort` call in `ArgParser::execute`: sort `args_` by the
byte-lexicographic key comparator. `std::sort` promises a permutation that is
sorted for the comparator; since the parser guarantees pairwise-distinct keys,
that permutation is unique, so any compliant algorithm (here: insertion sort)
yields the same table. -/
def sortArgs (v : Args) : Args := List.insertionSort argLe v

/-- `std::ranges::lower_bound(v, key, {}, &Arg::first)` on the key-projected
range: the first entry whose key is not less than `key` (`none` = `v.end()`). -/
def lowerBound (v : Args) (key : Str) : Option Arg :=
  match v with
  | [] => none
  | x :: xs => if svLt x.1 key then lowerBound xs key else some x

/-- `namedargs::binary_search(v, key)`: `lower_bound`, then reject when at the
end or when `key < it->first`. -/
def binary_search (v : Args) (key : Str) : Option Arg :=
  match lowerBound v key with
  | none => none
  | some x => if svLt key x.1 then none else some x

/-- `ArgParser::execute`: `tokenize(); parse(); std::sort(args_, byKey)`.
`parse()` runs `parse_args` over the whole token sequence starting from the
empty table. Returns the finalised (sorted) table. -/
def execute (input : Str) : Except Err Args :=
  match tokenize input with
  | .error e => .error e
  | .ok toks =>
    match parse_args toks [] with
    | .error e => .error e
    | .ok (_, args) => .ok (sortArgs args)

/-- Compatibility of the output type `T` of `ArgParser::assign_or` with the
concrete alternative stored in the variant: `canInt` models
`std::assignable_from<T&, std::int64_t>`, `canStr` models
`std::assignable_from<T&, std::string_view>`. -/
def compat (v : ArgType) (canInt canStr : Bool) : Bool :=
  match v with
  | .inl _ => canInt
  | .inr _ => canStr

/-- `ArgParser::assign_or(out, key, value)` for an output type `T` described
by the two assignability flags: `binary_search` the (const) table; a missing
key assigns the caller's default; alternative 0 assigns the stored integer if
`T` accepts one, alternative 1 the stored string slice if `T` accepts one;
otherwise control reaches `throw parse_error("value is not assignable")`
(`BindingError::TypeMismatch`). Returns the value assigned to `out`. -/
def assign_or (canInt canStr : Bool) (args : Args) (key : Str) (dflt : ArgType) :
    Except Err ArgType :=
  match binary_search args key with
  | none => .ok dflt
  | some kv =>
    match kv.2 with
    | .inl n => if canInt then .ok (.inl n) else .error (.parseError "value is not assignable")
    | .inr s => if canStr then .ok (.inr s) else .error (.parseError "value is not assignable")

/-- `toks.back()` has kind `eof` and is the only way a parse can stop: the
invariant that the remaining token span is non-empty with an `eof` last token. -/
def ETerm : List Token → Prop
  | [] => False
  | [t] => t.kind = TokenKind.eof
  | _ :: rest => ETerm rest

/-- Scenario 1 of the spec: `"num = 42, str = 'Hello, world!'"`. -/
def scenario1 : Str :=
  "num = 42, str = ".toList ++ [quoteChar] ++ "Hello, world!".toList ++ [quoteChar]

/-- Scenario 3 of the spec: scenario 1 followed by five trailing spaces. -/
def scenario3 : Str := scenario1 ++ "     ".toList

/-- Scenario 4 of the spec: scenario 1 followed by a dangling comma and a space. -/
def scenario4 : Str := scenario1 ++ ", ".toList

/-- Scenario 5 of the spec: scenario 1 followed by a trailing identifier. -/
def scenario5 : Str := scenario1 ++ ", dummy".toList

/-- The table scenario 1 parses to (keys already in sorted order). -/
def scenario1Table : Args :=
  [(['n', 'u', 'm'], Sum.inl 42), (['s', 't', 'r'], Sum.inr "Hello, world!".toList)]

/-! ### Order lemmas for the byte-lexicographic comparator -/

theorem char_toNat_inj {a b : Char} (h : a.toNat = b.toNat) : a = b :=
  Char.ext (UInt32.ext h)

theorem svLt_irrefl (a : Str) : svLt a a = false := by
  induction a with
  | nil => rfl
  | cons c cs ih => simp [svLt, ih]

theorem svLt_trans (a : Str) : ∀ (b c : Str),
    svLt a b = true → svLt b c = true → svLt a c = true := by
  induction a with
  | nil =>
    intro b c h1 h2
    cases b with
    | nil => exact absurd h1 (by simp [svLt])
    | cons b bs =>
      cases c with
      | nil => exact absurd h2 (by simp [svLt])
      | cons c cs => rfl
  | cons a as ih =>
    intro b c h1 h2
    cases b with
    | nil => exact absurd h1 (by simp [svLt])
    | cons b bs =>
      cases c with
      | nil => exact absurd h2 (by simp [svLt])
      | cons c cs =>
        simp only [svLt] at h1 h2 ⊢
        split_ifs at h1 h2 ⊢ <;>
          first
          | rfl
          | (exact ih bs cs h1 h2)
          | omega

theorem svLt_eq_of_not (a : Str) : ∀ (b : Str),
    svLt a b = false → svLt b a = false → a = b := by
  induction a with
  | nil =>
    intro b h1 _
    cases b with
    | nil => rfl
    | cons b bs => exact absurd h1 (by simp [svLt])
  | cons a as ih =>
    intro b h1 h2
    cases b with
    | nil => exact absurd h2 (by simp [svLt])
    | cons b bs =>
      simp only [svLt] at h1 h2
      by_cases g1 : a.toNat < b.toNat
      · rw [if_pos g1] at h1
        exact absurd h1 (by simp)
      · rw [if_neg g1] at h1
        by_cases g2 : b.toNat < a.toNat
        · rw [if_pos g2] at h2
          exact absurd h2 (by simp)
        · rw [if_neg g2] at h1
          rw [if_neg g2, if_neg g1] at h2
          have hc : a = b := char_toNat_inj (by omega)
          subst hc
          rw [ih bs h1 h2]

theorem svLt_asymm {a b : Str} (h : svLt a b = true) : svLt b a = false := by
  cases hr : svLt b a with
  | false => rfl
  | true => exact absurd (svLt_trans a b a h hr) (by simp [svLt_irrefl])

instance : IsTrans Arg argLe where
  trans x y z h1 h2 := by
    unfold argLe at h1 h2 ⊢
    cases h : svLt z.1 x.1 with
    | false => rfl
    | true =>
      cases hxy : svLt x.1 y.1 with
      | true => exact absurd (svLt_trans _ _ _ h hxy) (by simp [h2])
      | false =>
        have hx : x.1 = y.1 := svLt_eq_of_not _ _ hxy h1
        rw [hx] at h
        exact absurd h (by simp [h2])

instance : IsTotal Arg argLe where
  total x y := by
    unfold argLe
    cases h : svLt y.1 x.1 with
    | false => exact Or.inl rfl
    | true => exact Or.inr (svLt_asymm h)

/-! ### Lookup lemmas: `binary_search` on key-sorted tables -/

theorem binary_search_cons (x : Arg) (xs : Args) (key : Str) :
    binary_search (x :: xs) key =
      if svLt x.1 key then binary_search xs key
      else if svLt key x.1 then none else some x := by
  cases h : svLt x.1 key <;> simp [binary_search, lowerBound, h]

theorem binary_search_some (v : Args) (key : Str) (x : Arg) :
    binary_search v key = some x → x ∈ v ∧ x.1 = key := by
  induction v with
  | nil => intro h; exact absurd h (by simp [binary_search, lowerBound])
  | cons y ys ih =>
    intro h
    rw [binary_search_cons] at h
    cases h1 : svLt y.1 key with
    | true =>
      rw [if_pos h1] at h
      obtain ⟨hm, hk⟩ := ih h
      exact ⟨List.mem_cons_of_mem _ hm, hk⟩
    | false =>
      rw [if_neg (by simp [h1])] at h
      cases h2 : svLt key y.1 with
      | true =>
        rw [if_pos h2] at h
        exact absurd h (by simp)
      | false =>
        rw [if_neg (by simp [h2])] at h
        have hx : y = x := by injection h
        subst hx
        exact ⟨List.mem_cons_self _ _, svLt_eq_of_not _ _ h1 h2⟩

theorem binary_search_mem (v : Args) (k : Str) (val : ArgType) :
    v.Pairwise argLt → (k, val) ∈ v → binary_search v k = some (k, val) := by
  induction v with
  | nil => intro _ hm; exact absurd hm (by simp)
  | cons y ys ih =>
    intro hs hm
    have h0 : ∀ z ∈ ys, argLt y z := (List.pairwise_cons.mp hs).1
    have hs' : ys.Pairwise argLt := (List.pairwise_cons.mp hs).2
    rw [binary_search_cons]
    rcases List.mem_cons.mp hm with he | hm'
    · rw [← he]
      rw [if_neg (by simp [svLt_irrefl]), if_neg (by simp [svLt_irrefl])]
    · have hlt : argLt y (k, val) := h0 _ hm'
      unfold argLt at hlt
      rw [if_pos hlt]
      exact ih hs' hm'

theorem binary_search_not_mem (v : Args) (k : Str) :
    k ∉ v.map Prod.fst → binary_search v k = none := by
  intro hk
  cases h : binary_search v k with
  | none => rfl
  | some x =>
    obtain ⟨hm, hkey⟩ := binary_search_some v k x h
    exact absurd (List.mem_map.mpr ⟨x, hm, hkey⟩) hk

/-! ### Tokenizer lemmas -/

theorem find_if_not_from_bounds (pred : Char → Bool) :
    ∀ (l : Str) (pos p : Nat), find_if_not_from pred l pos = some p →
      pos ≤ p ∧ p < pos + l.length := by
  intro l
  induction l with
  | nil => intro pos p h; exact absurd h (by simp [find_if_not_from])
  | cons c rest ih =>
    intro pos p h
    simp only [find_if_not_from] at h
    by_cases hc : pred c
    · rw [if_pos hc] at h
      obtain ⟨h1, h2⟩ := ih (pos + 1) p h
      simp only [List.length_cons]
      omega
    · rw [if_neg hc] at h
      injection h with h
      subst h
      simp

theorem find_if_not_pos (pred : Char → Bool) (c : Char) (rest : Str) (p : Nat)
    (h : find_if_not (c :: rest) pred 1 = some p) : 1 ≤ p ∧ p < rest.length + 1 := by
  unfold find_if_not at h
  rw [show (c :: rest).drop 1 = rest from rfl] at h
  have := find_if_not_from_bounds pred rest 1 p h
  omega

theorem skip_whitespaces_cases (c : Char) (rest : Str) :
    skip_whitespaces (c :: rest) = .error .outOfRange ∨
    ∃ sv2, skip_whitespaces (c :: rest) = .ok sv2 ∧ sv2.length < rest.length + 1 := by
  unfold skip_whitespaces
  cases h : find_if_not (c :: rest) isspace 1 with
  | none => exact Or.inl rfl
  | some pos =>
    obtain ⟨h1, h2⟩ := find_if_not_pos isspace c rest pos h
    refine Or.inr ⟨_, rfl, ?_⟩
    simp only [List.length_drop, List.length_cons]
    omega

theorem skip_whitespaces_error (sv : Str) (e : Err)
    (h : skip_whitespaces sv = .error e) : e = .outOfRange := by
  unfold skip_whitespaces at h
  cases hf : find_if_not sv isspace 1 <;> rw [hf] at h <;> simp_all

theorem tokenize_identifier_cases (c : Char) (rest : Str) :
    tokenize_identifier (c :: rest) = .error .outOfRange ∨
    ∃ t sv2, tokenize_identifier (c :: rest) = .ok (t, sv2) ∧ t.kind = TokenKind.ident ∧
      sv2.length < rest.length + 1 := by
  unfold tokenize_identifier
  cases h : find_if_not (c :: rest) isident2 1 with
  | none => exact Or.inl rfl
  | some pos =>
    obtain ⟨h1, h2⟩ := find_if_not_pos isident2 c rest pos h
    refine Or.inr ⟨_, _, rfl, rfl, ?_⟩
    simp only [List.length_drop, List.length_cons]
    omega

theorem tokenize_identifier_error (sv : Str) (e : Err)
    (h : tokenize_identifier sv = .error e) : e = .outOfRange := by
  unfold tokenize_identifier at h
  cases hf : find_if_not sv isident2 1 <;> rw [hf] at h <;> simp_all

theorem from_chars_length_le : ∀ (sv : Str) (n : Int), (from_chars sv n).2.length ≤ sv.length := by
  intro sv
  induction sv with
  | nil => intro n; simp [from_chars]
  | cons c rest ih =>
    intro n
    simp only [from_chars]
    by_cases hc : isdigit c
    · rw [if_pos hc]
      exact le_trans (ih _) (by simp)
    · rw [if_neg hc]

theorem tokenize_number_kind (sv : Str) : (tokenize_number sv).1.kind = TokenKind.num := rfl

theorem tokenize_number_length (c : Char) (rest : Str) (hc : isdigit c = true) :
    (tokenize_number (c :: rest)).2.length < rest.length + 1 := by
  have h2 : (tokenize_number (c :: rest)).2 = (from_chars (c :: rest) 0).2 := rfl
  rw [h2]
  have h3 : from_chars (c :: rest) 0 =
      from_chars rest (wrap64 (10 * 0 + ((c.toNat : Int) - 48))) := by
    simp [from_chars, hc]
  rw [h3]
  have := from_chars_length_le rest (wrap64 (10 * 0 + ((c.toNat : Int) - 48)))
  omega

theorem find_first_of_from_bounds (ch : Char) :
    ∀ (l : Str) (pos p : Nat), find_first_of_from ch l pos = some p →
      pos ≤ p ∧ p < pos + l.length := by
  intro l
  induction l with
  | nil => intro pos p h; exact absurd h (by simp [find_first_of_from])
  | cons c rest ih =>
    intro pos p h
    simp only [find_first_of_from] at h
    by_cases hc : c == ch
    · rw [if_pos hc] at h
      injection h with h
      subst h
      simp
    · rw [if_neg hc] at h
      obtain ⟨h1, h2⟩ := ih (pos + 1) p h
      simp only [List.length_cons]
      omega

theorem tokenize_string_literal_cases (c : Char) (rest : Str) :
    tokenize_string_literal (c :: rest) = .error (.parseError "unclosed string literal") ∨
    ∃ t sv2, tokenize_string_literal (c :: rest) = .ok (t, sv2) ∧ t.kind = TokenKind.str ∧
      sv2.length < rest.length + 1 := by
  unfold tokenize_string_literal
  cases h : find_first_of (c :: rest) quoteChar 1 with
  | none => exact Or.inl rfl
  | some pos =>
    unfold find_first_of at h
    rw [show (c :: rest).drop 1 = rest from rfl] at h
    obtain ⟨h1, h2⟩ := find_first_of_from_bounds quoteChar rest 1 pos h
    refine Or.inr ⟨_, _, rfl, rfl, ?_⟩
    simp only [List.length_drop, List.length_cons]
    omega

theorem tokenize_string_literal_error (sv : Str) (e : Err)
    (h : tokenize_string_literal sv = .error e) : e = .parseError "unclosed string literal" := by
  unfold tokenize_string_literal at h
  cases hf : find_first_of sv quoteChar 1 <;> rw [hf] at h <;> simp_all

theorem tokenize_punct_kind (sv : Str) : (tokenize_punct sv).1.kind = TokenKind.punct := rfl

theorem tokenize_punct_length (c : Char) (rest : Str) :
    (tokenize_punct (c :: rest)).2.length < rest.length + 1 := by
  simp [tokenize_punct]

theorem tokenizeLoop_eof : ∀ (fuel : Nat) (sv : Str) (acc toks : List Token),
    (∀ t ∈ acc, t.kind ≠ TokenKind.eof) → tokenizeLoop fuel sv acc = .ok toks →
    ∃ ns, toks = ns ++ [⟨TokenKind.eof, [], 0⟩] ∧ ∀ t ∈ ns, t.kind ≠ TokenKind.eof := by
  intro fuel
  induction fuel with
  | zero => intro sv acc toks _ h; exact absurd h (by simp [tokenizeLoop])
  | succ fuel ih =>
    intro sv acc toks hacc h
    cases sv with
    | nil =>
      simp only [tokenizeLoop] at h
      injection h with h
      subst h
      exact ⟨acc, rfl, hacc⟩
    | cons c rest =>
      have hext : ∀ (t : Token), t.kind ≠ TokenKind.eof →
          ∀ u ∈ acc ++ [t], u.kind ≠ TokenKind.eof := by
        intro t ht u hu
        rcases List.mem_append.mp hu with hu | hu
        · exact hacc u hu
        · rw [List.mem_singleton.mp hu]
          exact ht
      simp only [tokenizeLoop] at h
      by_cases h1 : isspace c
      · rw [if_pos h1] at h
        cases hsw : skip_whitespaces (c :: rest) with
        | error e => rw [hsw] at h; exact absurd h (by simp)
        | ok sv2 => rw [hsw] at h; exact ih sv2 acc toks hacc h
      · rw [if_neg h1] at h
        by_cases h2 : isdigit c
        · rw [if_pos h2] at h
          rcases htn : tokenize_number (c :: rest) with ⟨t, sv2⟩
          rw [htn] at h
          have hkind : t.kind = TokenKind.num := by
            rw [show t = (tokenize_number (c :: rest)).1 by rw [htn]]
            exact tokenize_number_kind _
          exact ih sv2 _ toks (hext t (by rw [hkind]; intro hk; cases hk)) h
        · rw [if_neg h2] at h
          by_cases h3 : c == quoteChar
          · rw [if_pos h3] at h
            cases hts : tokenize_string_literal (c :: rest) with
            | error e => rw [hts] at h; exact absurd h (by simp)
            | ok p =>
              rcases p with ⟨t, sv2⟩
              rw [hts] at h
              have hkind : t.kind = TokenKind.str := by
                rcases tokenize_string_literal_cases c rest with he | ⟨t', sv2', hok, hk, _⟩
                · rw [he] at hts; cases hts
                · rw [hok] at hts
                  injection hts with hts
                  injection hts with hts1 hts2
                  rw [← hts1]
                  exact hk
              exact ih sv2 _ toks (hext t (by rw [hkind]; intro hk; cases hk)) h
          · rw [if_neg h3] at h
            by_cases h4 : isident1 c
            · rw [if_pos h4] at h
              cases hti : tokenize_identifier (c :: rest) with
              | error e => rw [hti] at h; exact absurd h (by simp)
              | ok p =>
                rcases p with ⟨t, sv2⟩
                rw [hti] at h
                have hkind : t.kind = TokenKind.ident := by
                  rcases tokenize_identifier_cases c rest with he | ⟨t', sv2', hok, hk, _⟩
                  · rw [he] at hti; cases hti
                  · rw [hok] at hti
                    injection hti with hti
                    injection hti with hti1 hti2
                    rw [← hti1]
                    exact hk
                exact ih sv2 _ toks (hext t (by rw [hkind]; intro hk; cases hk)) h
            · rw [if_neg h4] at h
              by_cases h5 : ispunct c
              · rw [if_pos h5] at h
                rcases htp : tokenize_punct (c :: rest) with ⟨t, sv2⟩
                rw [htp] at h
                have hkind : t.kind = TokenKind.punct := by
                  rw [show t = (tokenize_punct (c :: rest)).1 by rw [htp]]
                  exact tokenize_punct_kind _
                exact ih sv2 _ toks (hext t (by rw [hkind]; intro hk; cases hk)) h
              · rw [if_neg h5] at h
                exact absurd h (by simp)

/-- The token sequence of a successful `tokenize` run: some non-`eof` tokens
followed by exactly one `eof` token. -/
theorem tokenize_eof (input : Str) (toks : List Token) (h : tokenize input = .ok toks) :
    ∃ ns, toks = ns ++ [⟨TokenKind.eof, [], 0⟩] ∧ ∀ t ∈ ns, t.kind ≠ TokenKind.eof :=
  tokenizeLoop_eof _ input [] toks (by simp) h

theorem tokenizeLoop_no_loopLimit : ∀ (fuel : Nat) (sv : Str) (acc : List Token),
    sv.length < fuel → tokenizeLoop fuel sv acc ≠ .error .loopLimit := by
  intro fuel
  induction fuel with
  | zero => intro sv acc h; exact absurd h (by omega)
  | succ fuel ih =>
    intro sv acc hlen
    cases sv with
    | nil => simp [tokenizeLoop]
    | cons c rest =>
      simp only [List.length_cons] at hlen
      simp only [tokenizeLoop]
      by_cases h1 : isspace c
      · rw [if_pos h1]
        rcases skip_whitespaces_cases c rest with he | ⟨sv2, hok, hl⟩
        · rw [he]; simp
        · rw [hok]; exact ih sv2 acc (by omega)
      · rw [if_neg h1]
        by_cases h2 : isdigit c
        · rw [if_pos h2]
          rcases htn : tokenize_number (c :: rest) with ⟨t, sv2⟩
          have hl : sv2.length < rest.length + 1 := by
            rw [show sv2 = (tokenize_number (c :: rest)).2 by rw [htn]]
            exact tokenize_number_length c rest h2
          exact ih sv2 _ (by omega)
        · rw [if_neg h2]
          by_cases h3 : c == quoteChar
          · rw [if_pos h3]
            rcases tokenize_string_literal_cases c rest with he | ⟨t, sv2, hok, _, hl⟩
            · rw [he]; simp
            · rw [hok]; exact ih sv2 _ (by omega)
          · rw [if_neg h3]
            by_cases h4 : isident1 c
            · rw [if_pos h4]
              rcases tokenize_identifier_cases c rest with he | ⟨t, sv2, hok, _, hl⟩
              · rw [he]; simp
              · rw [hok]; exact ih sv2 _ (by omega)
            · rw [if_neg h4]
              by_cases h5 : ispunct c
              · rw [if_pos h5]
                rcases htp : tokenize_punct (c :: rest) with ⟨t, sv2⟩
                have hl : sv2.length < rest.length + 1 := by
                  rw [show sv2 = (tokenize_punct (c :: rest)).2 by rw [htp]]
                  exact tokenize_punct_length c rest
                exact ih sv2 _ (by omega)
              · rw [if_neg h5]
                simp

/-- The artificial iteration bound of the loop embedding is never reached:
`tokenize` never reports `Err.loopLimit` (the C++ `while` loop always
terminates because every iteration consumes at least one character). -/
theorem tokenize_no_loopLimit (input : Str) : tokenize input ≠ .error .loopLimit :=
  tokenizeLoop_no_loopLimit _ input [] (Nat.lt_succ_self _)

/-! ### Parser lemmas: every `front()` access is in bounds and the
duplicate-key check makes the key list `Nodup` -/

theorem eterm_cons {t : Token} {rest : List Token} (h : ETerm (t :: rest))
    (hk : t.kind ≠ TokenKind.eof) : ETerm rest := by
  cases rest with
  | nil => exact absurd h hk
  | cons a as => exact h

theorem eterm_append (ns : List Token) : ETerm (ns ++ [(⟨TokenKind.eof, [], 0⟩ : Token)]) := by
  induction ns with
  | nil => rfl
  | cons t ts ih =>
    rw [List.cons_append]
    cases h2 : ts ++ [(⟨TokenKind.eof, [], 0⟩ : Token)] with
    | nil => exact absurd h2 (by simp)
    | cons a as =>
      rw [h2] at ih
      exact ih

theorem find_eq_none_iff (v : Args) (key : Str) : find v key = none ↔ key ∉ v.map Prod.fst := by
  unfold find
  rw [List.find?_eq_none]
  constructor
  · intro h hm
    obtain ⟨x, hx, hkey⟩ := List.mem_map.mp hm
    exact absurd (by simp [hkey]) (h x hx)
  · intro h x hx
    simp only [beq_iff_eq]
    intro he
    exact h (List.mem_map.mpr ⟨x, hx, he⟩)

theorem consume_punct_cases (punct : Str) (toks : List Token) (h : ETerm toks) :
    (∃ rest, consume_punct punct toks = .ok (rest, true) ∧ ETerm rest ∧
       rest.length < toks.length) ∨
    consume_punct punct toks = .ok (toks, false) := by
  cases toks with
  | nil => exact h.elim
  | cons t rest =>
    by_cases hp : t.kind = TokenKind.punct ∧ t.sv = punct
    · left
      refine ⟨rest, by simp [consume_punct, hp], ?_, by simp⟩
      exact eterm_cons h (by rw [hp.1]; intro hk; cases hk)
    · right
      simp [consume_punct, hp]

theorem parse_ident_cases (toks : List Token) (args : Args) (h : ETerm toks) :
    (∃ msg, parse_ident toks args = .error (.parseError msg)) ∨
    ∃ rest k, parse_ident toks args = .ok (rest, k) ∧ ETerm rest ∧
      rest.length < toks.length ∧ k ∉ args.map Prod.fst := by
  cases toks with
  | nil => exact h.elim
  | cons tok rest =>
    by_cases hk : tok.kind = TokenKind.ident
    · cases hf : find args tok.sv with
      | none =>
        right
        refine ⟨rest, tok.sv, by simp [parse_ident, hk, hf], ?_, by simp, ?_⟩
        · exact eterm_cons h (by rw [hk]; intro hc; cases hc)
        · exact (find_eq_none_iff args tok.sv).mp hf
      | some x =>
        left
        exact ⟨"argument already exists", by simp [parse_ident, hk, hf]⟩
    · left
      exact ⟨"unexpected token; expecting TokenKind::ident", by simp [parse_ident, hk]⟩

theorem expect_punct_cases (punct : Str) (toks : List Token) (h : ETerm toks) :
    (∃ msg, expect_punct punct toks = .error (.parseError msg)) ∨
    ∃ rest, expect_punct punct toks = .ok rest ∧ ETerm rest ∧ rest.length < toks.length := by
  cases toks with
  | nil => exact h.elim
  | cons t rest =>
    by_cases hp : t.kind = TokenKind.punct ∧ t.sv = punct
    · right
      refine ⟨rest, by simp [expect_punct, hp], ?_, by simp⟩
      exact eterm_cons h (by rw [hp.1]; intro hk; cases hk)
    · left
      exact ⟨"unexpected token in namedargs::expect_punct", by simp [expect_punct, hp]⟩

theorem parse_primary_cases (toks : List Token) (h : ETerm toks) :
    (∃ msg, parse_primary toks = .error (.parseError msg)) ∨
    ∃ rest v, parse_primary toks = .ok (rest, v) ∧ ETerm rest ∧ rest.length < toks.length := by
  cases toks with
  | nil => exact h.elim
  | cons t rest =>
    cases hk : t.kind with
    | str =>
      right
      refine ⟨rest, .inr t.sv, by simp [parse_primary, hk], ?_, by simp⟩
      exact eterm_cons h (by rw [hk]; intro hc; cases hc)
    | num =>
      right
      refine ⟨rest, .inl t.num, by simp [parse_primary, hk], ?_, by simp⟩
      exact eterm_cons h (by rw [hk]; intro hc; cases hc)
    | ident =>
      left
      exact ⟨"unexpected token; expecting TokenKind::str or TokenKind::num",
        by simp [parse_primary, hk]⟩
    | punct =>
      left
      exact ⟨"unexpected token; expecting TokenKind::str or TokenKind::num",
        by simp [parse_primary, hk]⟩
    | eof =>
      left
      exact ⟨"unexpected token; expecting TokenKind::str or TokenKind::num",
        by simp [parse_primary, hk]⟩

theorem parse_assign_cases (toks : List Token) (args : Args) (h : ETerm toks) :
    (∃ msg, parse_assign toks args = .error (.parseError msg)) ∨
    ∃ rest k v, parse_assign toks args = .ok (rest, args ++ [(k, v)]) ∧ ETerm rest ∧
      rest.length < toks.length ∧ k ∉ args.map Prod.fst := by
  rcases parse_ident_cases toks args h with ⟨msg, he⟩ | ⟨t2, k, hok, h2, hl2, hk⟩
  · left; exact ⟨msg, by simp [parse_assign, he]⟩
  · rcases expect_punct_cases eqSv t2 h2 with ⟨msg, he⟩ | ⟨t2b, hok2, h2b, hl2b⟩
    · left; exact ⟨msg, by simp [parse_assign, hok, he]⟩
    · rcases parse_primary_cases t2b h2b with ⟨msg, he⟩ | ⟨t3, v, hok3, h3, hl3⟩
      · left; exact ⟨msg, by simp [parse_assign, hok, hok2, he]⟩
      · right
        exact ⟨t3, k, v, by simp [parse_assign, hok, hok2, hok3], h3, by omega, hk⟩

theorem nodup_snoc_key (args : Args) (k : Str) (v : ArgType)
    (hnd : (args.map Prod.fst).Nodup) (hk : k ∉ args.map Prod.fst) :
    ((args ++ [(k, v)]).map Prod.fst).Nodup := by
  simp only [List.map_append, List.map_cons, List.map_nil]
  rw [List.nodup_append]
  refine ⟨hnd, List.nodup_singleton _, ?_⟩
  intro x hx hxk
  rw [List.mem_singleton.mp hxk] at hx
  exact hk hx

theorem parse_stmt_loop_cases : ∀ (fuel : Nat) (toks : List Token) (args : Args),
    toks.length < fuel → ETerm toks →
    (∃ msg, parse_stmt_loop fuel toks args = .error (.parseError msg)) ∨
    ∃ t a, parse_stmt_loop fuel toks args = .ok (t, a) ∧ ETerm t ∧ t.length ≤ toks.length ∧
      ((args.map Prod.fst).Nodup → (a.map Prod.fst).Nodup) := by
  intro fuel
  induction fuel with
  | zero => intro toks args hl _; exact absurd hl (by omega)
  | succ fuel ih =>
    intro toks args hl h
    rcases consume_punct_cases commaSv toks h with ⟨t2, hok, h2, hl2⟩ | hok
    · rcases parse_assign_cases t2 args h2 with ⟨msg, he⟩ | ⟨t3, k, v, hok3, h3, hl3, hk⟩
      · left
        exact ⟨msg, by simp [parse_stmt_loop, hok, he]⟩
      · rcases ih t3 (args ++ [(k, v)]) (by omega) h3 with
          ⟨msg, he⟩ | ⟨t4, a4, hok4, h4, hl4, hnd⟩
        · left; exact ⟨msg, by simp [parse_stmt_loop, hok, hok3, he]⟩
        · right
          refine ⟨t4, a4, by simp [parse_stmt_loop, hok, hok3, hok4], h4, by omega, ?_⟩
          intro hnodup
          exact hnd (nodup_snoc_key args k v hnodup hk)
    · right
      exact ⟨toks, args, by simp [parse_stmt_loop, hok], h, le_refl _, id⟩

theorem parse_stmt_cases (toks : List Token) (args : Args) (h : ETerm toks) :
    (∃ msg, parse_stmt toks args = .error (.parseError msg)) ∨
    ∃ t a, parse_stmt toks args = .ok (t, a) ∧ ETerm t ∧
      ((args.map Prod.fst).Nodup → (a.map Prod.fst).Nodup) := by
  rcases parse_assign_cases toks args h with ⟨msg, he⟩ | ⟨t2, k, v, hok, h2, hl2, hk⟩
  · left; exact ⟨msg, by simp [parse_stmt, he]⟩
  · rcases parse_stmt_loop_cases (t2.length + 1) t2 (args ++ [(k, v)]) (by omega) h2 with
      ⟨msg, he⟩ | ⟨t3, a3, hok3, h3, hl3, hnd⟩
    · left; exact ⟨msg, by simp [parse_stmt, hok, he]⟩
    · right
      refine ⟨t3, a3, by simp [parse_stmt, hok, hok3], h3, ?_⟩
      intro hnodup
      exact hnd (nodup_snoc_key args k v hnodup hk)

theorem parse_args_cases (toks : List Token) (args : Args) (h : ETerm toks) :
    (∃ msg, parse_args toks args = .error (.parseError msg)) ∨
    ∃ t a, parse_args toks args = .ok (t, a) ∧
      ((args.map Prod.fst).Nodup → (a.map Prod.fst).Nodup) := by
  cases toks with
  | nil => exact h.elim
  | cons tok rest =>
    by_cases hk : tok.kind = TokenKind.eof
    · right
      exact ⟨rest, args, by simp [parse_args, consume, hk], id⟩
    · have hcons : consume TokenKind.eof (tok :: rest) = .ok (tok :: rest, false) := by
        simp [consume, hk]
      rcases parse_stmt_cases (tok :: rest) args h with ⟨msg, he⟩ | ⟨t3, a3, hok3, h3, hnd⟩
      · left; exact ⟨msg, by simp [parse_args, hcons, he]⟩
      · cases t3 with
        | nil => exact h3.elim
        | cons t4 r4 =>
          by_cases hk4 : t4.kind = TokenKind.eof
          · right
            exact ⟨r4, a3, by simp [parse_args, hcons, hok3, expect, hk4], hnd⟩
          · left
            exact ⟨"unexpected token in namedargs::expect",
              by simp [parse_args, hcons, hok3, expect, hk4]⟩

/-! ### The finalised table of a successful `execute` -/

theorem execute_ok_anatomy (input : Str) (table : Args) (h : execute input = .ok table) :
    ∃ toks t args, tokenize input = .ok toks ∧ parse_args toks [] = .ok (t, args) ∧
      table = sortArgs args ∧ (args.map Prod.fst).Nodup := by
  unfold execute at h
  cases ht : tokenize input with
  | error e => simp only [ht] at h; cases h
  | ok toks =>
    simp only [ht] at h
    cases hp : parse_args toks [] with
    | error e => simp only [hp] at h; cases h
    | ok p =>
      rcases p with ⟨t, args⟩
      simp only [hp] at h
      injection h with h
      obtain ⟨ns, hns, _⟩ := tokenize_eof input toks ht
      have heterm : ETerm toks := by rw [hns]; exact eterm_append ns
      rcases parse_args_cases toks [] heterm with ⟨msg, he⟩ | ⟨t', a', hok, hnd⟩
      · rw [he] at hp; cases hp
      · rw [hp] at hok
        injection hok with hok
        injection hok with hok1 hok2
        refine ⟨toks, t, args, rfl, hp, h.symm, ?_⟩
        rw [hok2]
        exact hnd List.nodup_nil

theorem execute_table_sorted (input : Str) (table : Args) (h : execute input = .ok table) :
    table.Pairwise argLt ∧ (table.map Prod.fst).Nodup := by
  obtain ⟨toks, t, args, ht, hp, htab, hnd⟩ := execute_ok_anatomy input table h
  have hperm : List.Perm (sortArgs args) args := List.perm_insertionSort argLe args
  have hndtab : (table.map Prod.fst).Nodup := by
    rw [htab]
    exact ((hperm.map Prod.fst).nodup_iff).mpr hnd
  have hsorted : table.Pairwise argLe := by
    rw [htab]
    exact List.sorted_insertionSort argLe args
  refine ⟨?_, hndtab⟩
  have hne : table.Pairwise (fun x y : Arg => x.1 ≠ y.1) := List.pairwise_map.mp hndtab
  refine (hsorted.and hne).imp ?_
  intro x y hxy
  obtain ⟨h1, h2⟩ := hxy
  unfold argLe at h1
  unfold argLt
  cases hlt : svLt x.1 y.1 with
  | true => rfl
  | false => exact absurd (svLt_eq_of_not _ _ hlt h1) h2

/-! ### String-literal scanning helpers -/

theorem take_length_append {α : Type} (l1 l2 : List α) : (l1 ++ l2).take l1.length = l1 := by
  induction l1 with
  | nil => rfl
  | cons a as ih => simp [ih]

theorem drop_length_add {α : Type} (l1 l2 : List α) (n : Nat) :
    (l1 ++ l2).drop (l1.length + n) = l2.drop n := by
  induction l1 with
  | nil => simp
  | cons a as ih =>
    rw [List.cons_append, List.length_cons]
    rw [show as.length + 1 + n = (as.length + n) + 1 by omega]
    exact ih

theorem find_first_of_from_not_mem (ch : Char) :
    ∀ (l : Str) (pos : Nat), ch ∉ l → find_first_of_from ch l pos = none := by
  intro l
  induction l with
  | nil => intro pos _; rfl
  | cons c rest ih =>
    intro pos hn
    simp only [find_first_of_from]
    have hc : ¬((c == ch) = true) := by
      simp only [beq_iff_eq]
      intro he
      subst he
      exact hn (List.mem_cons_self _ _)
    rw [if_neg hc]
    exact ih (pos + 1) (fun hm => hn (List.mem_cons_of_mem _ hm))

theorem find_first_of_from_found (ch : Char) :
    ∀ (pre : Str) (post : Str) (pos : Nat), ch ∉ pre →
      find_first_of_from ch (pre ++ ch :: post) pos = some (pos + pre.length) := by
  intro pre
  induction pre with
  | nil =>
    intro post pos _
    simp [find_first_of_from]
  | cons c cs ih =>
    intro post pos hn
    simp only [List.cons_append, find_first_of_from]
    have hc : ¬((c == ch) = true) := by
      simp only [beq_iff_eq]
      intro he
      subst he
      exact hn (List.mem_cons_self _ _)
    rw [if_neg hc]
    show find_first_of_from ch (cs ++ ch :: post) (pos + 1) = some (pos + (c :: cs).length)
    rw [ih post (pos + 1) (fun hm => hn (List.mem_cons_of_mem _ hm))]
    congr 1
    simp only [List.length_cons]
    omega

/-! ### The claims -/

/-- Claim C1 (code bug). Leading and interior whitespace is indeed
insignificant, and the spec, together with the repository's own example file
(which marks the trailing-space input `// ok`), says trailing whitespace is
too. But when a whitespace run reaches the end of the input,
`find_if_not(sv, isspace, 1)` returns `npos` and `skip_whitespaces` then calls
`sv.substr(npos)`, which throws `std::out_of_range`: the trailing-space inputs
abort instead of parsing to the same table. -/
theorem claim1_trailing_whitespace :
    execute scenario1 = .ok scenario1Table ∧
    execute "a=1".toList = .ok [(['a'], Sum.inl 1)] ∧
    execute "  a  =  1".toList = .ok [(['a'], Sum.inl 1)] ∧
    execute scenario3 = .error .outOfRange ∧
    execute "a=1 ".toList = .error .outOfRange ∧
    execute " ".toList = .error .outOfRange :=
  ⟨by decide, by decide, by decide, by decide, by decide, by decide⟩

/-- Claim C2 (code bug). When the token after the optional statement list is
not `eof`, the parser itself does fail with a `SyntaxError` (the two
`parse_error` results below), but both example inputs named by the claim never
reach the parser: the dangling comma followed by a trailing space dies in
`skip_whitespaces`, and the trailing identifier `dummy` dies in
`tokenize_identifier` — each with `std::out_of_range` from `substr(npos)`
instead of a `SyntaxError`. -/
theorem claim2_trailing_tokens :
    execute scenario4 = .error .outOfRange ∧
    execute scenario5 = .error .outOfRange ∧
    execute "a = 1,".toList =
      .error (.parseError "unexpected token; expecting TokenKind::ident") ∧
    execute "a = 1 b = 2".toList =
      .error (.parseError "unexpected token in namedargs::expect") :=
  ⟨by decide, by decide, by decide, by decide⟩

/-- Claim C3 (code bug). A digit run whose value fits is tokenized into a
`num` token spanning exactly the consumed digits with the correct base-10
value, but an overflowing run does not fail with `NumberOverflow`:
`tokenize_number` calls the unchecked recursive `from_chars` of `parser.hpp`
(whose own TODO comment admits the missing failure path; the checked
implementation in `from_chars.hpp` is never used), so `2^63` silently wraps to
`-2^63` (undefined behaviour at runtime, ill-formed in constant evaluation)
and tokenization succeeds. -/
theorem claim3_number_overflow :
    tokenize "42".toList = .ok [⟨TokenKind.num, "42".toList, 42⟩, ⟨TokenKind.eof, [], 0⟩] ∧
    tokenize "9223372036854775808".toList =
      .ok [⟨TokenKind.num, "9223372036854775808".toList, -9223372036854775808⟩,
           ⟨TokenKind.eof, [], 0⟩] :=
  ⟨by decide, by decide⟩

/-- Claim C4 (confirmed). A repeated identifier is rejected the moment it is
parsed again, wherever it occurs: `parse_ident` throws
`parse_error("argument already exists")` (`SemanticError::DuplicateKey`)
whenever the front identifier is already a key; the input `"a = 1, a = 2"`
fails exactly that way on the second `a`; and consequently the keys of any
successfully parsed table are pairwise distinct. -/
theorem claim4_duplicate_keys :
    (∀ (tok : Token) (rest : List Token) (args : Args),
       tok.kind = TokenKind.ident → tok.sv ∈ args.map Prod.fst →
       parse_ident (tok :: rest) args = .error (.parseError "argument already exists")) ∧
    execute "a = 1, a = 2".toList = .error (.parseError "argument already exists") ∧
    (∀ (input : Str) (table : Args), execute input = .ok table →
       (table.map Prod.fst).Nodup) := by
  refine ⟨?_, by decide, ?_⟩
  · intro tok rest args hk hmem
    cases hfind : find args tok.sv with
    | none =>
      exact absurd hmem (by rw [← find_eq_none_iff]; exact hfind)
    | some x => simp [parse_ident, hk, hfind]
  · intro input table h
    exact (execute_table_sorted input table h).2

/-- Witness for C4 at concrete inputs: the duplicate check fires with the
repeated key `a` stored first, and the table of `"a = 1, b = 2"` has distinct
keys. -/
theorem claim4_witness :
    parse_ident [⟨TokenKind.ident, ['a'], 0⟩, ⟨TokenKind.eof, [], 0⟩] [(['a'], Sum.inl 1)] =
      .error (.parseError "argument already exists") ∧
    ((([(['a'], Sum.inl 1), (['b'], Sum.inl 2)] : Args)).map Prod.fst).Nodup :=
  ⟨claim4_duplicate_keys.1 ⟨TokenKind.ident, ['a'], 0⟩ [⟨TokenKind.eof, [], 0⟩]
      [(['a'], Sum.inl 1)] rfl (by decide),
   claim4_duplicate_keys.2.2 "a = 1, b = 2".toList [(['a'], Sum.inl 1), (['b'], Sum.inl 2)]
      (by decide)⟩

/-- Claim C5 (confirmed). After a successful parse and the one-time sort, keys
strictly increase in byte-lexicographic order along the table, and
`binary_search` is a valid lookup: every stored pair is found exactly, and a
key not present yields `none` (`v.end()`). -/
theorem claim5_sorted_lookup (input : Str) (table : Args)
    (h : execute input = .ok table) :
    List.Chain' argLt table ∧
    (∀ kv ∈ table, binary_search table kv.1 = some kv) ∧
    (∀ k, k ∉ table.map Prod.fst → binary_search table k = none) := by
  obtain ⟨hpw, _⟩ := execute_table_sorted input table h
  refine ⟨hpw.chain', ?_, ?_⟩
  · intro kv hm
    rcases kv with ⟨k, v⟩
    exact binary_search_mem table k v hpw hm
  · intro k hk
    exact binary_search_not_mem table k hk

/-- Witness for C5 at `"b = 1, a = 2"`: the sorted table, a present key, and
an absent key. -/
theorem claim5_witness :
    List.Chain' argLt [(['a'], Sum.inl 2), (['b'], Sum.inl 1)] ∧
    binary_search [(['a'], Sum.inl 2), (['b'], Sum.inl 1)] ['b'] = some (['b'], Sum.inl 1) ∧
    binary_search [(['a'], Sum.inl 2), (['b'], Sum.inl 1)] ['c'] = none := by
  obtain ⟨h1, h2, h3⟩ := claim5_sorted_lookup "b = 1, a = 2".toList
    [(['a'], Sum.inl 2), (['b'], Sum.inl 1)] (by decide)
  exact ⟨h1, h2 (['b'], Sum.inl 1) (by simp), h3 ['c'] (by decide)⟩

/-- Claim C6 (confirmed). For a key stored in a finalised table, binding with
an output type whose assignability matches the stored alternative assigns
exactly the stored value, and binding with an output type incompatible with
the stored kind reaches `throw parse_error("value is not assignable")`
(`BindingError::TypeMismatch`). -/
theorem claim6_binding (input : Str) (table : Args) (k : Str) (v : ArgType)
    (canInt canStr : Bool) (dflt : ArgType) (h : execute input = .ok table)
    (hm : (k, v) ∈ table) :
    (compat v canInt canStr = true → assign_or canInt canStr table k dflt = .ok v) ∧
    (compat v canInt canStr = false →
       assign_or canInt canStr table k dflt =
         .error (.parseError "value is not assignable")) := by
  obtain ⟨hpw, _⟩ := execute_table_sorted input table h
  have hbs : binary_search table k = some (k, v) := binary_search_mem table k v hpw hm
  cases v with
  | inl n =>
    exact ⟨fun hc => by simp [assign_or, hbs, compat] at hc ⊢; simp [hc],
           fun hc => by simp [assign_or, hbs, compat] at hc ⊢; simp [hc]⟩
  | inr s =>
    exact ⟨fun hc => by simp [assign_or, hbs, compat] at hc ⊢; simp [hc],
           fun hc => by simp [assign_or, hbs, compat] at hc ⊢; simp [hc]⟩

/-- Witness for C6 on scenario 1: binding `num` to an integer-assignable
output yields the stored 42; binding it to a string-only output is a
`TypeMismatch`. -/
theorem claim6_witness :
    assign_or true false scenario1Table ['n', 'u', 'm'] (Sum.inl 0) = .ok (Sum.inl 42) ∧
    assign_or false true scenario1Table ['n', 'u', 'm'] (Sum.inl 0) =
      .error (.parseError "value is not assignable") :=
  ⟨(claim6_binding scenario1 scenario1Table ['n', 'u', 'm'] (Sum.inl 42) true false
      (Sum.inl 0) (by decide) (by simp [scenario1Table])).1 rfl,
   (claim6_binding scenario1 scenario1Table ['n', 'u', 'm'] (Sum.inl 42) false true
      (Sum.inl 0) (by decide) (by simp [scenario1Table])).2 rfl⟩

/-- Claim C7 (confirmed). Binding a key that is absent from the finalised
table assigns exactly the caller-supplied default, whatever the output type's
assignability; `assign_or` is a `const` member reading the table through
`binary_search` only, so the table itself is untouched (in this pure embedding
it is an input that is never rebuilt). -/
theorem claim7_default (input : Str) (table : Args) (k : Str)
    (canInt canStr : Bool) (dflt : ArgType) (h : execute input = .ok table)
    (hk : k ∉ table.map Prod.fst) :
    assign_or canInt canStr table k dflt = .ok dflt := by
  have hbs : binary_search table k = none := binary_search_not_mem table k hk
  simp [assign_or, hbs]

/-- Witness for C7 on scenario 1 with the absent key `k`. -/
theorem claim7_witness :
    assign_or true false scenario1Table ['k'] (Sum.inl 7) = .ok (Sum.inl 7) :=
  claim7_default scenario1 scenario1Table ['k'] true false (Sum.inl 7)
    (by decide) (by decide)

/-- Claim C8 (confirmed). The empty input tokenizes to exactly the `eof`
token, the parser accepts it through the optional-`stmt` branch of
`args = stmt?` without error, and the finalised table is empty. -/
theorem claim8_empty_input :
    tokenize [] = .ok [⟨TokenKind.eof, [], 0⟩] ∧
    parse_args [⟨TokenKind.eof, [], 0⟩] [] = .ok ([], []) ∧
    execute [] = .ok [] :=
  ⟨by decide, by decide, by decide⟩

/-- Claim C9 (confirmed). On a quote character, `tokenize` hands the input to
`tokenize_string_literal` and resumes with its remainder. If no further quote
exists the result is `parse_error("unclosed string literal")`
(`LexicalError::UnterminatedString`); otherwise the emitted `str` token spans
exactly the characters strictly between the opening quote and the first
closing quote — taken verbatim, quotes excluded, no escape processing — and
scanning resumes immediately past the closing quote. -/
theorem claim9_string_literal (rest : Str) (acc : List Token) (fuel : Nat) :
    (quoteChar ∉ rest →
       tokenize_string_literal (quoteChar :: rest) =
         .error (.parseError "unclosed string literal")) ∧
    (∀ pre post, rest = pre ++ quoteChar :: post → quoteChar ∉ pre →
       tokenize_string_literal (quoteChar :: rest) = .ok (⟨TokenKind.str, pre, 0⟩, post)) ∧
    (tokenizeLoop (fuel + 1) (quoteChar :: rest) acc =
       match tokenize_string_literal (quoteChar :: rest) with
       | .error e => .error e
       | .ok (t, sv2) => tokenizeLoop fuel sv2 (acc ++ [t])) := by
  refine ⟨?_, ?_, ?_⟩
  · intro hn
    unfold tokenize_string_literal
    rw [show find_first_of (quoteChar :: rest) quoteChar 1 =
          find_first_of_from quoteChar rest 1 from rfl]
    rw [find_first_of_from_not_mem quoteChar rest 1 hn]
  · intro pre post hsplit hn
    subst hsplit
    unfold tokenize_string_literal
    rw [show find_first_of (quoteChar :: (pre ++ quoteChar :: post)) quoteChar 1 =
          find_first_of_from quoteChar (pre ++ quoteChar :: post) 1 from rfl]
    rw [find_first_of_from_found quoteChar pre post 1 hn]
    show Except.ok (Token.mk TokenKind.str
        (((quoteChar :: (pre ++ quoteChar :: post)).drop 1).take (1 + pre.length - 1)) 0,
        (quoteChar :: (pre ++ quoteChar :: post)).drop (1 + pre.length + 1)) =
      Except.ok (Token.mk TokenKind.str pre 0, post)
    have htake : ((quoteChar :: (pre ++ quoteChar :: post)).drop 1).take
        (1 + pre.length - 1) = pre := by
      rw [show (quoteChar :: (pre ++ quoteChar :: post)).drop 1 =
            pre ++ quoteChar :: post from rfl]
      rw [show (1 : Nat) + pre.length - 1 = pre.length from by omega]
      exact take_length_append pre _
    have hdrop : (quoteChar :: (pre ++ quoteChar :: post)).drop (1 + pre.length + 1) = post := by
      rw [show (1 : Nat) + pre.length + 1 = pre.length + 2 from by omega]
      rw [show (quoteChar :: (pre ++ quoteChar :: post)).drop (pre.length + 2) =
            (pre ++ quoteChar :: post).drop (pre.length + 1) from rfl]
      rw [drop_length_add pre (quoteChar :: post) 1]
      rfl
    rw [htake, hdrop]
  · rw [show tokenizeLoop (fuel + 1) (quoteChar :: rest) acc =
          (if isspace quoteChar then
             match skip_whitespaces (quoteChar :: rest) with
             | .error e => .error e
             | .ok sv2 => tokenizeLoop fuel sv2 acc
           else if isdigit quoteChar then
             match tokenize_number (quoteChar :: rest) with
             | (t, sv2) => tokenizeLoop fuel sv2 (acc ++ [t])
           else if quoteChar == quoteChar then
             match tokenize_string_literal (quoteChar :: rest) with
             | .error e => .error e
             | .ok (t, sv2) => tokenizeLoop fuel sv2 (acc ++ [t])
           else if isident1 quoteChar then
             match tokenize_identifier (quoteChar :: rest) with
             | .error e => .error e
             | .ok (t, sv2) => tokenizeLoop fuel sv2 (acc ++ [t])
           else if ispunct quoteChar then
             match tokenize_punct (quoteChar :: rest) with
             | (t, sv2) => tokenizeLoop fuel sv2 (acc ++ [t])
           else .error (.parseError "unexpected character")) from rfl]
    rw [if_neg (by decide), if_neg (by decide), if_pos (by decide)]

/-- Witness for C9 at concrete literals: a closed literal with a comma and a
space inside, an unterminated literal, and the dispatch step of the tokenizer
loop. -/
theorem claim9_witness :
    tokenize_string_literal (quoteChar :: ("Hi, x".toList ++ quoteChar :: " tail".toList)) =
      .ok (⟨TokenKind.str, "Hi, x".toList, 0⟩, " tail".toList) ∧
    tokenize_string_literal (quoteChar :: "abc".toList) =
      .error (.parseError "unclosed string literal") ∧
    tokenizeLoop 3 (quoteChar :: ("ab".toList ++ quoteChar :: [])) [] =
      (match tokenize_string_literal (quoteChar :: ("ab".toList ++ quoteChar :: [])) with
       | .error e => .error e
       | .ok (t, sv2) => tokenizeLoop 2 sv2 ([] ++ [t])) :=
  ⟨(claim9_string_literal ("Hi, x".toList ++ quoteChar :: " tail".toList) [] 0).2.1
      "Hi, x".toList " tail".toList rfl (by decide),
   (claim9_string_literal "abc".toList [] 0).1 (by decide),
   (claim9_string_literal ("ab".toList ++ quoteChar :: []) [] 2).2.2⟩

/-- Claim C10 (confirmed). A successful `tokenize` produces some non-`eof`
tokens followed by exactly one `eof` token at the end, and parsing such a
sequence never evaluates `front()` on an empty span — no parsing path advances
the cursor past the `eof` token, so every token access of `consume`,
`consume_punct`, `expect`, `expect_punct`, `parse_ident` and `parse_primary`
is in bounds. -/
theorem claim10_access_in_bounds (input : Str) (toks : List Token)
    (h : tokenize input = .ok toks) :
    (∃ ns, toks = ns ++ [⟨TokenKind.eof, [], 0⟩] ∧ ∀ t ∈ ns, t.kind ≠ TokenKind.eof) ∧
    ∀ args, parse_args toks args ≠ .error .frontOnEmpty := by
  obtain ⟨ns, hns, hne⟩ := tokenize_eof input toks h
  refine ⟨⟨ns, hns, hne⟩, ?_⟩
  intro args
  have heterm : ETerm toks := by rw [hns]; exact eterm_append ns
  rcases parse_args_cases toks args heterm with ⟨msg, he⟩ | ⟨t, a, hok, _⟩
  · rw [he]
    intro hc
    injection hc with hc
    cases hc
  · rw [hok]
    intro hc
    cases hc

/-- Witness for C10 at `"a = 1"`. -/
theorem claim10_witness :
    (∃ ns, ([⟨TokenKind.ident, ['a'], 0⟩, ⟨TokenKind.punct, ['='], 0⟩,
        ⟨TokenKind.num, ['1'], 1⟩, ⟨TokenKind.eof, [], 0⟩] : List Token) =
        ns ++ [⟨TokenKind.eof, [], 0⟩] ∧ ∀ t ∈ ns, t.kind ≠ TokenKind.eof) ∧
    parse_args [⟨TokenKind.ident, ['a'], 0⟩, ⟨TokenKind.punct, ['='], 0⟩,
        ⟨TokenKind.num, ['1'], 1⟩, ⟨TokenKind.eof, [], 0⟩] [] ≠ .error .frontOnEmpty := by
  obtain ⟨h1, h2⟩ := claim10_access_in_bounds "a = 1".toList
    [⟨TokenKind.ident, ['a'], 0⟩, ⟨TokenKind.punct, ['='], 0⟩,
     ⟨TokenKind.num, ['1'], 1⟩, ⟨TokenKind.eof, [], 0⟩] (by decide)
  exact ⟨h1, h2 []⟩

end Namedargs
